import Mathlib

/-!
Shallow embedding of the separate-chaining hash map in `src/lib.rs`
(`HashMap<K, V>` with `buckets : Vec<Vec<(K, V)>>` and `items : usize`),
together with proofs about its operations.

Machine integers (`u64`, `usize`) are modelled by `Nat`; the bucket-index
computation `hasher.finish() % self.buckets.len() as u64` is `h k % len`
where `h : K → Nat` stands for the external hashing collaborator
(deterministic on keys, as `DefaultHasher` is).  In Rust, `x % 0` on
integers panics ("remainder with a divisor of zero"); a computation that
panics is modelled by the result `Res.fault`.
-/

namespace BasicHash

/-- Outcome of an operation that can panic at runtime: `fault` models the
panic, `ok` a normal return. -/
inductive Res (α : Type) where
  | fault : Res α
  | ok : α → Res α
deriving DecidableEq

variable {K V : Type} [DecidableEq K]

/-- `const INITIAL_NBUCKETS: usize = 1;` -/
def INITIAL_NBUCKETS : Nat := 1

/-- `pub struct HashMap<K, V> { buckets: Vec<Vec<(K, V)>>, items: usize }` -/
structure HashMap (K V : Type) where
  buckets : List (List (K × V))
  items : Nat
deriving DecidableEq

/-- `HashMap::new()`: empty bucket vector, zero items. -/
def HashMap.new : HashMap K V :=
  { buckets := [], items := 0 }

/-- `fn bucket(&self, key: &K) -> usize`: `hasher.finish() % self.buckets.len()`.
When `buckets.len() = 0` the Rust remainder panics, hence `none`. -/
def bucketIdx (h : K → Nat) (buckets : List (List (K × V))) (key : K) : Option Nat :=
  if buckets.length = 0 then none else some (h key % buckets.length)

/-- The scan loop inside `insert`: walk the chain; at the first entry whose
key equals `key`, replace the value (`mem::replace(evalue, value)`, the key
itself is left in place) and return the previous value together with the
updated chain; `none` when no entry matches. -/
def replaceInChain (key : K) (value : V) : List (K × V) → Option (List (K × V) × V)
  | [] => none
  | e :: rest =>
    if e.1 = key then
      some ((e.1, value) :: rest, e.2)
    else
      match replaceInChain key value rest with
      | some (rest', prev) => some (e :: rest', prev)
      | none => none

/-- One step of the redistribution loop in `resize`:
`new_buckets[hash % new_buckets.len()].push((key, value))`. -/
def pushAt (h : K → Nat) (acc : List (List (K × V))) (e : K × V) : List (List (K × V)) :=
  acc.set (h e.1 % acc.length) ((acc.getD (h e.1 % acc.length) []) ++ [e])

/-- `fn resize(&mut self)`: target size is `INITIAL_NBUCKETS` when there are
no buckets, else double; every existing entry (drained chain by chain, in
order) is pushed onto the new bucket at `hash(key) % target_size`. -/
def HashMap.resize (h : K → Nat) (m : HashMap K V) : HashMap K V :=
  let target_size := match m.buckets.length with
    | 0 => INITIAL_NBUCKETS
    | n => 2 * n
  let new_buckets : List (List (K × V)) := List.replicate target_size []
  { buckets := m.buckets.flatten.foldl (pushAt h) new_buckets, items := m.items }

/-- `pub fn insert(&mut self, key: K, value: V) -> Option<V>`.
Resizes first when the buckets are unallocated or `items > 3*len/4`;
then `self.items += 1` is executed unconditionally (before the chain scan,
so also on the replace path), the chain at `hash(key) % len` is scanned for
the key, replacing on a hit and pushing `(key, value)` on a miss.
After the guard the bucket vector is non-empty, so the `%` cannot be by zero. -/
def HashMap.insert (h : K → Nat) (m : HashMap K V) (key : K) (value : V) :
    HashMap K V × Option V :=
  let m' := if m.buckets.length = 0 ∨ m.items > 3 * m.buckets.length / 4
    then m.resize h else m
  let b := h key % m'.buckets.length
  let chain := m'.buckets.getD b []
  match replaceInChain key value chain with
  | some (chain', prev) =>
    ({ buckets := m'.buckets.set b chain', items := m'.items + 1 }, some prev)
  | none =>
    ({ buckets := m'.buckets.set b (chain ++ [(key, value)]), items := m'.items + 1 }, none)

/-- `pub fn get(&self, key: &K) -> Option<&V>`: finds the first entry of the
target chain with an equal key.  On a table with zero buckets the bucket
computation panics (`Res.fault`). -/
def HashMap.get (h : K → Nat) (m : HashMap K V) (key : K) : Res (Option V) :=
  match bucketIdx h m.buckets key with
  | none => Res.fault
  | some b =>
    Res.ok (((m.buckets.getD b []).find? (fun e => decide (e.1 = key))).map Prod.snd)

/-- `Vec::swap_remove(i)`: replace the element at `i` by the last element and
drop the last slot (O(1) removal that does not preserve chain order). -/
def swapRemove {α : Type} (l : List α) (i : Nat) : List α :=
  match l.getLast? with
  | none => []
  | some z => (l.set i z).dropLast

/-- `pub fn remove(&mut self, key: &K) -> Option<V>`: computes the target
bucket (panicking on zero buckets), looks up the position of the key in the
chain (`?` returns `Some(m, none)`-style absence without touching `items`),
then decrements `items` and swap-removes the entry, returning its value. -/
def HashMap.remove (h : K → Nat) (m : HashMap K V) (key : K) :
    Res (HashMap K V × Option V) :=
  match bucketIdx h m.buckets key with
  | none => Res.fault
  | some b =>
    let chain := m.buckets.getD b []
    match chain.findIdx? (fun e => decide (e.1 = key)) with
    | none => Res.ok (m, none)
    | some i =>
      Res.ok ({ buckets := m.buckets.set b (swapRemove chain i), items := m.items - 1 },
        ((chain.get? i).map Prod.snd))

/-- `pub fn len(&self) -> usize { self.items }` -/
def HashMap.len (m : HashMap K V) : Nat :=
  m.items

/-- `pub fn is_empty(&self) -> bool { self.items == 0 }` -/
def HashMap.isEmptyMap (m : HashMap K V) : Bool :=
  m.items == 0

/-- `pub fn contains_key(&self, key: &K) -> bool { self.get(key).is_some() }` -/
def HashMap.containsKey (h : K → Nat) (m : HashMap K V) (key : K) : Res Bool :=
  match m.get h key with
  | Res.fault => Res.fault
  | Res.ok o => Res.ok o.isSome

/-- All stored entries, chains concatenated in bucket order. -/
def HashMap.entries (m : HashMap K V) : List (K × V) :=
  m.buckets.flatten

/-- Iterator state: `struct Iter { bucket: usize, at: usize }` (the `map`
reference is passed separately). `pos` is the source's `at` field. -/
structure Iter where
  bucket : Nat
  pos : Nat
deriving DecidableEq

/-- `Iter::next`: yield the entry at (`bucket`, `pos`) and advance `pos`;
on an exhausted chain move to the next bucket at position 0; finish when
`bucket` runs past the bucket vector. -/
def Iter.next (m : HashMap K V) (it : Iter) : Option ((K × V) × Iter) :=
  match hb : m.buckets.get? it.bucket with
  | some chain =>
    match chain.get? it.pos with
    | some e => some (e, ⟨it.bucket, it.pos + 1⟩)
    | none => Iter.next m ⟨it.bucket + 1, 0⟩
  | none => none
termination_by m.buckets.length - it.bucket
decreasing_by
  have hlt : it.bucket < m.buckets.length := (List.get?_eq_some.mp hb).1
  omega

/-- Repeatedly call `Iter.next`, collecting the yielded entries; `fuel`
bounds the number of calls (the Rust iteration is driven externally and
stops at the first `None`). -/
def drain (m : HashMap K V) : Nat → Iter → List (K × V)
  | 0, _ => []
  | fuel + 1, it =>
    match Iter.next m it with
    | none => []
    | some (e, it') => e :: drain m fuel it'

/-- `(&map).into_iter()` starts at bucket 0, position 0; `iterate` collects
the whole yielded sequence (with enough fuel to reach the final `None`). -/
def HashMap.iterate (m : HashMap K V) (fuel : Nat) : List (K × V) :=
  drain m fuel ⟨0, 0⟩

/-- A public mutating operation of the table. -/
inductive Op (K V : Type) where
  | ins : K → V → Op K V
  | del : K → Op K V
deriving DecidableEq

/-- Run one public operation; a panic (remove on zero buckets) is `fault`. -/
def step (h : K → Nat) (m : HashMap K V) : Op K V → Res (HashMap K V)
  | Op.ins k v => Res.ok (m.insert h k v).1
  | Op.del k =>
    match m.remove h k with
    | Res.fault => Res.fault
    | Res.ok (m', _) => Res.ok m'

/-- Run a sequence of public operations from `HashMap::new()`. -/
def run (h : K → Nat) (ops : List (Op K V)) : Res (HashMap K V) :=
  ops.foldl
    (fun r op =>
      match r with
      | Res.fault => Res.fault
      | Res.ok m => step h m op)
    (Res.ok HashMap.new)

/-- Insert a list of key/value pairs, in order, starting from `m`. -/
def insertAll (h : K → Nat) (kvs : List (K × V)) (m : HashMap K V) : HashMap K V :=
  kvs.foldl (fun acc e => (acc.insert h e.1 e.2).1) m

/-- The structural invariants I1 and I2 of the spec: every stored entry sits
in the chain at `hash(key) % len(buckets)`, and no chain holds two entries
with equal keys. -/
def HashMap.WF (h : K → Nat) (m : HashMap K V) : Prop :=
  (∀ (i : Fin m.buckets.length), ∀ e ∈ m.buckets.get i,
    h e.1 % m.buckets.length = i.val) ∧
  (∀ c ∈ m.buckets, (c.map Prod.fst).Nodup)

instance (h : K → Nat) (m : HashMap K V) : Decidable (m.WF h) := by
  unfold HashMap.WF
  infer_instance

/-! ## Lemmas about the chain scan of `insert` -/

theorem replaceInChain_eq_none_iff {key : K} {value : V} {c : List (K × V)} :
    replaceInChain key value c = none ↔ ∀ e ∈ c, e.1 ≠ key := by
  induction c with
  | nil => simp [replaceInChain]
  | cons e rest ih =>
    by_cases hk : e.1 = key
    · simp [replaceInChain, hk]
    · simp only [replaceInChain, if_neg hk]
      cases hrc : replaceInChain key value rest with
      | none =>
        simp only [List.mem_cons]
        constructor
        · intro _ x hx
          rcases hx with hx | hx
          · subst hx; exact hk
          · exact (ih.mp hrc) x hx
        · intro _; trivial
      | some p =>
        simp only [List.mem_cons]
        constructor
        · intro habs; exact absurd habs (by simp)
        · intro hall
          exfalso
          have : replaceInChain key value rest = none :=
            ih.mpr (fun x hx => hall x (Or.inr hx))
          rw [this] at hrc; exact absurd hrc (by simp)

theorem replaceInChain_eq_some {key : K} {value : V} :
    ∀ {c c' : List (K × V)} {prev : V},
    replaceInChain key value c = some (c', prev) →
    ∃ c₁ e c₂, c = c₁ ++ e :: c₂ ∧ e.1 = key ∧ (∀ x ∈ c₁, x.1 ≠ key) ∧
      c' = c₁ ++ (e.1, value) :: c₂ ∧ prev = e.2 := by
  intro c
  induction c with
  | nil => intro c' prev hrc; simp [replaceInChain] at hrc
  | cons e rest ih =>
    intro c' prev hrc
    by_cases hk : e.1 = key
    · simp only [replaceInChain, if_pos hk, Option.some.injEq, Prod.mk.injEq] at hrc
      exact ⟨[], e, rest, by simp, hk, by simp, by simp [hrc.1.symm], hrc.2.symm⟩
    · simp only [replaceInChain, if_neg hk] at hrc
      cases hrc2 : replaceInChain key value rest with
      | none => rw [hrc2] at hrc; simp at hrc
      | some p =>
        rw [hrc2] at hrc
        obtain ⟨rest', prev'⟩ := p
        simp only [Option.some.injEq, Prod.mk.injEq] at hrc
        obtain ⟨c₁, e₀, c₂, h1, h2, h3, h4, h5⟩ := ih hrc2
        refine ⟨e :: c₁, e₀, c₂, by simp [h1], h2, ?_, ?_, ?_⟩
        · intro x hx
          rcases List.mem_cons.mp hx with hx | hx
          · subst hx; exact hk
          · exact h3 x hx
        · rw [← hrc.1, h4]; simp
        · rw [← hrc.2]; exact h5

/-! ## Lemmas about `swapRemove` -/

theorem swapRemove_perm {α : Type} :
    ∀ (l : List α) (i : Nat), i < l.length → (swapRemove l i).Perm (l.eraseIdx i)
  | [], i, h => by simp at h
  | [x], 0, _ => by simp [swapRemove, List.eraseIdx]
  | [x], i + 1, h => by simp at h
  | x :: y :: t, 0, _ => by
    have hne : (y :: t : List α) ≠ [] := by simp
    have hlast : (x :: y :: t).getLast? = some ((y :: t).getLast hne) := by
      rw [List.getLast?_cons_cons, List.getLast?_eq_getLast _ hne]
    simp only [swapRemove, hlast, List.set_cons_zero, List.eraseIdx,
      List.dropLast_cons₂]
    have hperm : ((y :: t).getLast hne :: (y :: t).dropLast).Perm
        ((y :: t).dropLast ++ [(y :: t).getLast hne]) :=
      (List.perm_append_singleton _ _).symm
    rw [List.dropLast_append_getLast hne] at hperm
    exact hperm
  | x :: y :: t, i + 1, h => by
    have hlt : i < (y :: t).length := by simpa using h
    have hne : (y :: t : List α) ≠ [] := by simp
    have hlast : (x :: y :: t).getLast? = some ((y :: t).getLast hne) := by
      rw [List.getLast?_cons_cons, List.getLast?_eq_getLast _ hne]
    have hlast2 : (y :: t).getLast? = some ((y :: t).getLast hne) :=
      List.getLast?_eq_getLast _ hne
    have hstep : swapRemove (x :: y :: t) (i + 1) = x :: swapRemove (y :: t) i := by
      simp only [swapRemove, hlast, hlast2, List.set_cons_succ]
      have hnn : ((y :: t).set i ((y :: t).getLast hne)) ≠ [] := by
        intro habs
        have := congrArg List.length habs
        simp at this
      exact List.dropLast_cons_of_ne_nil hnn
    rw [hstep]
    show (x :: swapRemove (y :: t) i).Perm (x :: (y :: t).eraseIdx i)
    exact (swapRemove_perm (y :: t) i hlt).cons x

/-! ## Lemmas about the redistribution fold of `resize` -/

theorem length_pushAt (h : K → Nat) (acc : List (List (K × V))) (e : K × V) :
    (pushAt h acc e).length = acc.length :=
  List.length_set ..

theorem length_foldl_pushAt (h : K → Nat) (es : List (K × V)) :
    ∀ bs : List (List (K × V)), (es.foldl (pushAt h) bs).length = bs.length := by
  induction es with
  | nil => intro bs; rfl
  | cons e rest ih =>
    intro bs
    rw [List.foldl_cons, ih, length_pushAt]

theorem append_singleton_middle_perm {α : Type} (e : α) (A c D : List α) :
    (A ++ ((c ++ [e]) ++ D)).Perm (e :: (A ++ (c ++ D))) := by
  have h1 : A ++ ((c ++ [e]) ++ D) = ((A ++ c) ++ [e]) ++ D := by
    simp [List.append_assoc]
  have h2 : e :: (A ++ (c ++ D)) = (e :: (A ++ c)) ++ D := by
    simp [List.append_assoc]
  rw [h1, h2]
  exact (List.perm_append_singleton e (A ++ c)).append_right D

theorem flatten_pushAt_perm {h : K → Nat} {bs : List (List (K × V))}
    (h0 : 0 < bs.length) (e : K × V) :
    ((pushAt h bs e).flatten).Perm (e :: bs.flatten) := by
  have hb : h e.1 % bs.length < bs.length := Nat.mod_lt _ h0
  have hset : pushAt h bs e =
      bs.take (h e.1 % bs.length) ++
        (bs.getD (h e.1 % bs.length) [] ++ [e]) :: bs.drop (h e.1 % bs.length + 1) := by
    simp only [pushAt, List.set_eq_take_append_cons_drop, if_pos hb]
  have hsplit : bs = bs.take (h e.1 % bs.length) ++
      bs.getD (h e.1 % bs.length) [] :: bs.drop (h e.1 % bs.length + 1) := by
    conv_lhs => rw [← List.take_append_drop (h e.1 % bs.length) bs]
    rw [List.drop_eq_getElem_cons hb, List.getD_eq_getElem _ _ hb]
  rw [hset]
  conv_rhs => rw [hsplit]
  simp only [List.flatten_append, List.flatten_cons]
  exact append_singleton_middle_perm e _ _ _

theorem flatten_foldl_pushAt {h : K → Nat} (es : List (K × V)) :
    ∀ {bs : List (List (K × V))}, 0 < bs.length →
    ((es.foldl (pushAt h) bs).flatten).Perm (bs.flatten ++ es) := by
  induction es with
  | nil => intro bs _; simp
  | cons e rest ih =>
    intro bs h0
    rw [List.foldl_cons]
    have h0' : 0 < (pushAt h bs e).length := by rw [length_pushAt]; exact h0
    have p1 := ih h0'
    have p2 : ((pushAt h bs e).flatten ++ rest).Perm ((e :: bs.flatten) ++ rest) :=
      (flatten_pushAt_perm h0 e).append_right rest
    exact p1.trans (p2.trans List.perm_middle.symm)

theorem mem_foldl_pushAt {h : K → Nat} (es : List (K × V)) :
    ∀ {bs : List (List (K × V))}, 0 < bs.length →
    ∀ {i : Nat} {e : K × V}, e ∈ (es.foldl (pushAt h) bs).getD i [] →
    e ∈ bs.getD i [] ∨ h e.1 % bs.length = i := by
  induction es with
  | nil => intro bs _ i e he; exact Or.inl he
  | cons a rest ih =>
    intro bs h0 i e he
    rw [List.foldl_cons] at he
    have h0' : 0 < (pushAt h bs a).length := by rw [length_pushAt]; exact h0
    rcases ih h0' he with hmem | hplace
    · have hb : h a.1 % bs.length < bs.length := Nat.mod_lt _ h0
      by_cases hib : h a.1 % bs.length = i
      · rw [pushAt, hib, List.getD_eq_getElem?_getD,
          List.getElem?_set_self (by rw [← hib]; exact hb)] at hmem
        simp only [Option.getD_some] at hmem
        rcases List.mem_append.mp hmem with hmem | hmem
        · exact Or.inl (by rw [← hib] at hmem ⊢; exact hmem)
        · have : e = a := by simpa using hmem
          subst this
          exact Or.inr hib
      · rw [pushAt, List.getD_eq_getElem?_getD, List.getElem?_set_ne hib,
          ← List.getD_eq_getElem?_getD] at hmem
        exact Or.inl hmem
    · rw [length_pushAt] at hplace
      exact Or.inr hplace

/-! ## Lemmas about `resize` -/

theorem resize_buckets_length (h : K → Nat) (m : HashMap K V) :
    (m.resize h).buckets.length =
      if m.buckets.length = 0 then 1 else 2 * m.buckets.length := by
  simp only [HashMap.resize]
  rw [length_foldl_pushAt, List.length_replicate]
  cases hl : m.buckets.length with
  | zero => simp [INITIAL_NBUCKETS]
  | succ n => simp

theorem resize_length_pos (h : K → Nat) (m : HashMap K V) :
    0 < (m.resize h).buckets.length := by
  rw [resize_buckets_length]
  split <;> omega

theorem resize_items (h : K → Nat) (m : HashMap K V) :
    (m.resize h).items = m.items :=
  rfl

theorem flatten_replicate_nil {α : Type} (t : Nat) :
    (List.replicate t ([] : List α)).flatten = [] := by
  induction t with
  | zero => rfl
  | succ n ih => rw [List.replicate_succ, List.flatten_cons, ih]; rfl

theorem resize_entries_perm (h : K → Nat) (m : HashMap K V) :
    ((m.resize h).entries).Perm m.entries := by
  simp only [HashMap.resize, HashMap.entries]
  have h0 : 0 < (List.replicate (match m.buckets.length with
      | 0 => INITIAL_NBUCKETS | n => 2 * n) ([] : List (K × V))).length := by
    rw [List.length_replicate]
    cases m.buckets.length with
    | zero => simp [INITIAL_NBUCKETS]
    | succ n => simp
  have hp := flatten_foldl_pushAt (h := h) m.buckets.flatten h0
  rwa [flatten_replicate_nil, List.nil_append] at hp

theorem resize_placement {h : K → Nat} (m : HashMap K V) {i : Nat} {e : K × V}
    (he : e ∈ (m.resize h).buckets.getD i []) :
    h e.1 % (m.resize h).buckets.length = i := by
  simp only [HashMap.resize] at he ⊢
  have h0 : 0 < (List.replicate (match m.buckets.length with
      | 0 => INITIAL_NBUCKETS | n => 2 * n) ([] : List (K × V))).length := by
    rw [List.length_replicate]
    cases m.buckets.length with
    | zero => simp [INITIAL_NBUCKETS]
    | succ n => simp
  rcases mem_foldl_pushAt m.buckets.flatten h0 he with hmem | hplace
  · exfalso
    rw [List.getD_eq_getElem?_getD] at hmem
    rcases hge : (List.replicate (match m.buckets.length with
        | 0 => INITIAL_NBUCKETS | n => 2 * n) ([] : List (K × V)))[i]? with _ | c
    · rw [hge] at hmem; simp at hmem
    · rw [hge] at hmem
      have := List.getElem?_mem hge
      have hc : c = [] := by
        have := List.eq_of_mem_replicate this
        exact this
      rw [hc] at hmem
      simp at hmem
  · rw [length_foldl_pushAt] at *
    exact hplace

/-! ## The structural invariant: supporting lemmas -/

theorem WF_place_getD {h : K → Nat} {m : HashMap K V} (hwf : m.WF h) {i : Nat}
    {e : K × V} (he : e ∈ m.buckets.getD i []) :
    h e.1 % m.buckets.length = i := by
  by_cases hi : i < m.buckets.length
  · refine hwf.1 ⟨i, hi⟩ e ?_
    rw [List.get_eq_getElem, ← List.getD_eq_getElem m.buckets [] hi]
    exact he
  · exfalso
    rw [List.getD_eq_getElem?_getD, List.getElem?_eq_none (by omega)] at he
    simp at he

theorem WF_of_place_getD {h : K → Nat} {m : HashMap K V}
    (hp : ∀ {i : Nat} {e : K × V}, e ∈ m.buckets.getD i [] →
      h e.1 % m.buckets.length = i)
    (hn : ∀ c ∈ m.buckets, (c.map Prod.fst).Nodup) :
    m.WF h := by
  refine ⟨?_, hn⟩
  intro i e he
  refine hp (i := i.val) ?_
  rw [List.getD_eq_getElem m.buckets [] i.isLt]
  rw [List.get_eq_getElem] at he
  exact he

theorem HashMap.WF.entries_keys_nodup {h : K → Nat} {m : HashMap K V} (hwf : m.WF h) :
    ((m.entries).map Prod.fst).Nodup := by
  rw [HashMap.entries, List.map_flatten]
  rw [List.nodup_flatten]
  constructor
  · intro l hl
    rcases List.mem_map.mp hl with ⟨c, hc, rfl⟩
    exact hwf.2 c hc
  · rw [List.pairwise_iff_get]
    intro i j hij
    rw [List.Disjoint]
    intro k hki hkj
    have hi' : i.val < m.buckets.length := by
      have := i.isLt; simpa using this
    have hj' : j.val < m.buckets.length := by
      have := j.isLt; simpa using this
    have hgi : (m.buckets.map (List.map Prod.fst)).get i =
        (m.buckets.get ⟨i.val, hi'⟩).map Prod.fst := by
      simp
    have hgj : (m.buckets.map (List.map Prod.fst)).get j =
        (m.buckets.get ⟨j.val, hj'⟩).map Prod.fst := by
      simp
    rw [hgi] at hki
    rw [hgj] at hkj
    rcases List.mem_map.mp hki with ⟨e₁, he₁, hk₁⟩
    rcases List.mem_map.mp hkj with ⟨e₂, he₂, hk₂⟩
    have p₁ := hwf.1 ⟨i.val, hi'⟩ e₁ he₁
    have p₂ := hwf.1 ⟨j.val, hj'⟩ e₂ he₂
    rw [hk₁] at p₁
    rw [hk₂] at p₂
    have : i.val = j.val := by rw [← p₁, ← p₂]
    omega

theorem chain_keys_nodup_of_entries {m : HashMap K V}
    (hnd : ((m.entries).map Prod.fst).Nodup) :
    ∀ c ∈ m.buckets, (c.map Prod.fst).Nodup := by
  intro c hc
  exact List.Nodup.sublist ((List.sublist_flatten_of_mem hc).map Prod.fst) hnd

theorem resize_WF {h : K → Nat} {m : HashMap K V} (hwf : m.WF h) :
    (m.resize h).WF h := by
  refine WF_of_place_getD (fun {i e} he => resize_placement m he) ?_
  have hnd : (((m.resize h).entries).map Prod.fst).Nodup :=
    (((resize_entries_perm h m).map Prod.fst).nodup_iff).mpr hwf.entries_keys_nodup
  exact chain_keys_nodup_of_entries hnd

/-! ## Characterization of `insert` -/

/-- The table after the load-factor guard at the top of `insert` (the state
whose bucket vector the placement `hash(key) % len` is computed against). -/
def preInsert (h : K → Nat) (m : HashMap K V) : HashMap K V :=
  if m.buckets.length = 0 ∨ m.items > 3 * m.buckets.length / 4 then m.resize h else m

theorem insert_def (h : K → Nat) (m : HashMap K V) (k : K) (v : V) :
    m.insert h k v =
      match replaceInChain k v
          ((preInsert h m).buckets.getD (h k % (preInsert h m).buckets.length) []) with
      | some (chain', prev) =>
        ({ buckets :=
              (preInsert h m).buckets.set (h k % (preInsert h m).buckets.length) chain',
           items := (preInsert h m).items + 1 }, some prev)
      | none =>
        ({ buckets :=
              (preInsert h m).buckets.set (h k % (preInsert h m).buckets.length)
                (((preInsert h m).buckets.getD
                    (h k % (preInsert h m).buckets.length) []) ++ [(k, v)]),
           items := (preInsert h m).items + 1 }, none) :=
  rfl

theorem preInsert_length_pos (h : K → Nat) (m : HashMap K V) :
    0 < (preInsert h m).buckets.length := by
  unfold preInsert
  split
  · exact resize_length_pos h m
  · rename_i hg
    push_neg at hg
    omega

theorem preInsert_items (h : K → Nat) (m : HashMap K V) :
    (preInsert h m).items = m.items := by
  unfold preInsert
  split
  · exact resize_items h m
  · rfl

theorem preInsert_WF {h : K → Nat} {m : HashMap K V} (hwf : m.WF h) :
    (preInsert h m).WF h := by
  unfold preInsert
  split
  · exact resize_WF hwf
  · exact hwf

theorem preInsert_entries_perm (h : K → Nat) (m : HashMap K V) :
    ((preInsert h m).entries).Perm m.entries := by
  unfold preInsert
  split
  · exact resize_entries_perm h m
  · exact List.Perm.refl _

theorem insert_fst_items (h : K → Nat) (m : HashMap K V) (k : K) (v : V) :
    (m.insert h k v).1.items = m.items + 1 := by
  rw [insert_def]
  cases hrc : replaceInChain k v
      ((preInsert h m).buckets.getD (h k % (preInsert h m).buckets.length) []) with
  | none => simp [preInsert_items]
  | some p => obtain ⟨c', prev⟩ := p; simp [preInsert_items]

theorem insert_buckets_length (h : K → Nat) (m : HashMap K V) (k : K) (v : V) :
    (m.insert h k v).1.buckets.length = (preInsert h m).buckets.length := by
  rw [insert_def]
  cases hrc : replaceInChain k v
      ((preInsert h m).buckets.getD (h k % (preInsert h m).buckets.length) []) with
  | none => simp
  | some p => obtain ⟨c', prev⟩ := p; simp

theorem insert_length_pos (h : K → Nat) (m : HashMap K V) (k : K) (v : V) :
    0 < (m.insert h k v).1.buckets.length := by
  rw [insert_buckets_length]
  exact preInsert_length_pos h m

/-- After `insert(k, v)` the target chain of `k` splits as `c₁ ++ (k, v) :: c₂`
with no key `k` in `c₁`, with `c₁ ++ c₂` drawn from the pre-placement chain;
when the pre-state is well-formed, `c₂` is also `k`-free and the new chain's
keys are without duplicates. -/
theorem insert_target_chain (h : K → Nat) (m : HashMap K V) (k : K) (v : V) :
    ∃ c₁ c₂,
      (m.insert h k v).1.buckets.getD
          (h k % (preInsert h m).buckets.length) [] = c₁ ++ (k, v) :: c₂ ∧
      (∀ x ∈ c₁, x.1 ≠ k) ∧
      (∀ x ∈ c₁ ++ c₂,
        x ∈ (preInsert h m).buckets.getD (h k % (preInsert h m).buckets.length) []) ∧
      (m.WF h → (∀ x ∈ c₂, x.1 ≠ k) ∧
        (((c₁ ++ (k, v) :: c₂).map Prod.fst)).Nodup) := by
  have hpos := preInsert_length_pos h m
  have hb : h k % (preInsert h m).buckets.length < (preInsert h m).buckets.length :=
    Nat.mod_lt _ hpos
  have hchain_mem : ((preInsert h m).buckets.getD
      (h k % (preInsert h m).buckets.length) []) ∈ (preInsert h m).buckets := by
    rw [List.getD_eq_getElem _ _ hb]
    exact List.getElem_mem hb
  rw [insert_def]
  cases hrc : replaceInChain k v
      ((preInsert h m).buckets.getD (h k % (preInsert h m).buckets.length) []) with
  | none =>
    refine ⟨(preInsert h m).buckets.getD (h k % (preInsert h m).buckets.length) [], [],
      ?_, replaceInChain_eq_none_iff.mp hrc, ?_, ?_⟩
    · simp only []
      rw [List.getD_eq_getElem?_getD, List.getElem?_set_self (by simpa using hb)]
      rfl
    · intro x hx
      simpa using hx
    · intro hwf
      refine ⟨fun x hx => absurd hx (by simp), ?_⟩
      have hwf' := preInsert_WF hwf
      have hnd := hwf'.2 _ hchain_mem
      have hk_notin : k ∉ ((preInsert h m).buckets.getD
          (h k % (preInsert h m).buckets.length) []).map Prod.fst := by
        intro hmem
        rcases List.mem_map.mp hmem with ⟨x, hx, hxk⟩
        exact replaceInChain_eq_none_iff.mp hrc x hx hxk
      rw [List.map_append]
      rw [List.nodup_append]
      exact ⟨hnd, by simp, by
        intro a ha hb'
        have : a = k := by simpa using hb'
        subst this
        exact hk_notin ha⟩
  | some p =>
    obtain ⟨c', prev⟩ := p
    obtain ⟨c₁, e, c₂, hsplit, hek, hc₁, hc', hprev⟩ := replaceInChain_eq_some hrc
    refine ⟨c₁, c₂, ?_, fun x hx => by
        have hne := hc₁ x hx; rw [← hek] at hne ⊢; exact hne, ?_, ?_⟩
    · simp only []
      rw [List.getD_eq_getElem?_getD, List.getElem?_set_self (by simpa using hb)]
      rw [hc', hek]
      rfl
    · intro x hx
      rw [hsplit]
      rcases List.mem_append.mp hx with hx | hx
      · exact List.mem_append.mpr (Or.inl hx)
      · exact List.mem_append.mpr (Or.inr (List.mem_cons_of_mem _ hx))
    · intro hwf
      have hwf' := preInsert_WF hwf
      have hnd := hwf'.2 _ hchain_mem
      rw [hsplit] at hnd
      have hnd' : ((c₁ ++ (k, v) :: c₂).map Prod.fst).Nodup := by
        have hkeys : (c₁ ++ (k, v) :: c₂).map Prod.fst =
            (c₁ ++ e :: c₂).map Prod.fst := by
          simp [hek]
        rw [hkeys]
        exact hnd
      refine ⟨?_, hnd'⟩
      have hmid : (e.1 :: (c₁.map Prod.fst ++ c₂.map Prod.fst)).Nodup := by
        apply List.nodup_middle.mp
        simpa using hnd
      have hnotin := (List.nodup_cons.mp hmid).1
      intro x hx hxk
      apply hnotin
      apply List.mem_append.mpr
      right
      rw [hek, ← hxk]
      exact List.mem_map.mpr ⟨x, hx, rfl⟩

/-- Chains at indices other than the target index are untouched by `insert`
(they are the chains of the post-guard table). -/
theorem insert_other_chain (h : K → Nat) (m : HashMap K V) (k : K) (v : V) {i : Nat}
    (hi : i ≠ h k % (preInsert h m).buckets.length) :
    (m.insert h k v).1.buckets.getD i [] = (preInsert h m).buckets.getD i [] := by
  rw [insert_def]
  cases hrc : replaceInChain k v
      ((preInsert h m).buckets.getD (h k % (preInsert h m).buckets.length) []) with
  | none =>
    simp only []
    rw [List.getD_eq_getElem?_getD, List.getElem?_set_ne (fun he => hi he.symm),
      ← List.getD_eq_getElem?_getD]
  | some p =>
    obtain ⟨c', prev⟩ := p
    simp only []
    rw [List.getD_eq_getElem?_getD, List.getElem?_set_ne (fun he => hi he.symm),
      ← List.getD_eq_getElem?_getD]

theorem insert_WF {h : K → Nat} {m : HashMap K V} (k : K) (v : V) (hwf : m.WF h) :
    ((m.insert h k v).1).WF h := by
  have hwf' := preInsert_WF hwf
  have hpos := preInsert_length_pos h m
  have hb : h k % (preInsert h m).buckets.length < (preInsert h m).buckets.length :=
    Nat.mod_lt _ hpos
  have hlen := insert_buckets_length h m k v
  obtain ⟨c₁, c₂, hchain, hc₁, hsub, hstrong⟩ := insert_target_chain h m k v
  obtain ⟨hc₂, hnd⟩ := hstrong hwf
  apply WF_of_place_getD
  · intro i e he
    by_cases hib : i = h k % (preInsert h m).buckets.length
    · subst hib
      rw [hlen]
      rw [hchain] at he
      rcases List.mem_append.mp he with hmem | hmem
      · exact WF_place_getD hwf' (hsub e (List.mem_append.mpr (Or.inl hmem)))
      · rcases List.mem_cons.mp hmem with rfl | hmem
        · rfl
        · exact WF_place_getD hwf' (hsub e (List.mem_append.mpr (Or.inr hmem)))
    · rw [hlen]
      rw [insert_other_chain h m k v hib] at he
      exact WF_place_getD hwf' he
  · intro c hc
    have hform : (m.insert h k v).1.buckets =
        (preInsert h m).buckets.set (h k % (preInsert h m).buckets.length)
          (c₁ ++ (k, v) :: c₂) := by
      have hset : (m.insert h k v).1.buckets.getD
          (h k % (preInsert h m).buckets.length) [] = c₁ ++ (k, v) :: c₂ := hchain
      rw [insert_def]
      cases hrc : replaceInChain k v
          ((preInsert h m).buckets.getD (h k % (preInsert h m).buckets.length) []) with
      | none =>
        simp only []
        rw [insert_def, hrc] at hset
        simp only [] at hset
        rw [List.getD_eq_getElem?_getD, List.getElem?_set_self (by simpa using hb)]
          at hset
        simp only [Option.getD_some] at hset
        rw [hset]
      | some p =>
        obtain ⟨c', prev⟩ := p
        simp only []
        rw [insert_def, hrc] at hset
        simp only [] at hset
        rw [List.getD_eq_getElem?_getD, List.getElem?_set_self (by simpa using hb)]
          at hset
        simp only [Option.getD_some] at hset
        rw [hset]
    rw [hform] at hc
    rcases List.mem_or_eq_of_mem_set hc with hmem | rfl
    · exact hwf'.2 c hmem
    · exact hnd

/-! ## Characterization of `remove` and `get` -/

theorem findIdx?_middle {α : Type} {p : α → Bool} :
    ∀ (c₁ : List α) (e : α) (c₂ : List α) (s : Nat),
    (∀ x ∈ c₁, p x = false) → p e = true →
    (c₁ ++ e :: c₂).findIdx? p s = some (s + c₁.length) := by
  intro c₁
  induction c₁ with
  | nil =>
    intro e c₂ s _ hp
    simp [List.findIdx?_cons, hp]
  | cons a c₁ ih =>
    intro e c₂ s hfree hp
    have ha : p a = false := hfree a (by simp)
    rw [List.cons_append, List.findIdx?_cons, ha]
    simp only [Bool.false_eq_true, if_false]
    rw [ih e c₂ (s + 1) (fun x hx => hfree x (by simp [hx])) hp]
    congr 1
    simp only [List.length_cons]
    omega

theorem eraseIdx_middle {α : Type} :
    ∀ (c₁ : List α) (x : α) (c₂ : List α),
    (c₁ ++ x :: c₂).eraseIdx c₁.length = c₁ ++ c₂
  | [], x, c₂ => rfl
  | a :: c₁, x, c₂ => by
    simp only [List.cons_append, List.length_cons, List.eraseIdx_cons_succ]
    rw [eraseIdx_middle c₁ x c₂]

theorem swapRemove_middle_perm {α : Type} (c₁ : List α) (x : α) (c₂ : List α) :
    (swapRemove (c₁ ++ x :: c₂) c₁.length).Perm (c₁ ++ c₂) := by
  have hlt : c₁.length < (c₁ ++ x :: c₂).length := by simp
  have hsr := swapRemove_perm (c₁ ++ x :: c₂) c₁.length hlt
  rwa [eraseIdx_middle] at hsr

theorem swapRemove_subperm {α : Type} (l : List α) (i : Nat) :
    (swapRemove l i).Subperm l := by
  by_cases hi : i < l.length
  · exact ⟨l.eraseIdx i, (swapRemove_perm l i hi).symm, l.eraseIdx_sublist i⟩
  · cases hl : l.getLast? with
    | none =>
      have hsw : swapRemove l i = [] := by unfold swapRemove; rw [hl]
      rw [hsw]
      exact List.nil_subperm
    | some z =>
      have hsw : swapRemove l i = (l.set i z).dropLast := by unfold swapRemove; rw [hl]
      rw [hsw, List.set_eq_of_length_le (by omega)]
      exact (List.dropLast_sublist l).subperm

theorem subperm_keys_nodup {l₁ l₂ : List (K × V)} (hsp : l₁.Subperm l₂)
    (hnd : (l₂.map Prod.fst).Nodup) : (l₁.map Prod.fst).Nodup := by
  obtain ⟨l', hp, hs⟩ := hsp
  have h1 : (l'.map Prod.fst).Nodup := List.Nodup.sublist (hs.map _) hnd
  exact ((hp.map Prod.fst).nodup_iff).mp h1

theorem remove_found {h : K → Nat} {m : HashMap K V} {k : K} {v : V}
    {c₁ c₂ : List (K × V)} (hlen : m.buckets.length ≠ 0)
    (hchain : m.buckets.getD (h k % m.buckets.length) [] = c₁ ++ (k, v) :: c₂)
    (hc₁ : ∀ x ∈ c₁, x.1 ≠ k) :
    m.remove h k = Res.ok
      ({ buckets :=
            m.buckets.set (h k % m.buckets.length)
              (swapRemove (c₁ ++ (k, v) :: c₂) c₁.length),
         items := m.items - 1 }, some v) := by
  unfold HashMap.remove bucketIdx
  rw [if_neg hlen]
  simp only [hchain]
  rw [findIdx?_middle c₁ (k, v) c₂ 0 (fun x hx => by simp [hc₁ x hx]) (by simp)]
  simp only [Nat.zero_add]
  have hget : (c₁ ++ (k, v) :: c₂).get? c₁.length = some (k, v) := by
    rw [List.get?_eq_getElem?, List.getElem?_append_right (le_refl _)]
    simp
  rw [hget]
  rfl

theorem remove_not_found {h : K → Nat} {m : HashMap K V} {k : K}
    (hlen : m.buckets.length ≠ 0)
    (hno : ∀ x ∈ m.buckets.getD (h k % m.buckets.length) [], x.1 ≠ k) :
    m.remove h k = Res.ok (m, none) := by
  unfold HashMap.remove bucketIdx
  rw [if_neg hlen]
  simp only []
  rw [List.findIdx?_eq_none_iff.mpr (fun x hx => by simp [hno x hx])]

theorem get_of_chain {h : K → Nat} {m : HashMap K V} {k : K}
    (hlen : m.buckets.length ≠ 0) :
    m.get h k = Res.ok (((m.buckets.getD (h k % m.buckets.length) []).find?
      (fun e => decide (e.1 = k))).map Prod.snd) := by
  unfold HashMap.get bucketIdx
  rw [if_neg hlen]

theorem get_none_of_no_key {h : K → Nat} {m : HashMap K V} {k : K}
    (hlen : m.buckets.length ≠ 0)
    (hno : ∀ x ∈ m.buckets.getD (h k % m.buckets.length) [], x.1 ≠ k) :
    m.get h k = Res.ok none := by
  rw [get_of_chain hlen]
  rw [List.find?_eq_none.mpr (fun x hx => by simp [hno x hx])]
  rfl

theorem remove_WF {h : K → Nat} {m m₂ : HashMap K V} {k : K} {o : Option V}
    (hwf : m.WF h) (hr : m.remove h k = Res.ok (m₂, o)) : m₂.WF h := by
  unfold HashMap.remove bucketIdx at hr
  by_cases hlen : m.buckets.length = 0
  · rw [if_pos hlen] at hr
    simp at hr
  · rw [if_neg hlen] at hr
    simp only [] at hr
    have hb : h k % m.buckets.length < m.buckets.length :=
      Nat.mod_lt _ (Nat.pos_of_ne_zero hlen)
    have hchain_mem : (m.buckets.getD (h k % m.buckets.length) []) ∈ m.buckets := by
      rw [List.getD_eq_getElem _ _ hb]
      exact List.getElem_mem hb
    cases hidx : (m.buckets.getD (h k % m.buckets.length) []).findIdx?
        (fun e => decide (e.1 = k)) with
    | none =>
      rw [hidx] at hr
      simp only [Res.ok.injEq, Prod.mk.injEq] at hr
      rw [← hr.1]
      exact hwf
    | some i =>
      rw [hidx] at hr
      simp only [Res.ok.injEq, Prod.mk.injEq] at hr
      rw [← hr.1]
      apply WF_of_place_getD
      · intro j e he
        simp only [List.length_set] at *
        by_cases hjb : j = h k % m.buckets.length
        · subst hjb
          rw [List.getD_eq_getElem?_getD, List.getElem?_set_self (by simpa using hb),
            Option.getD_some] at he
          have hmem : e ∈ m.buckets.getD (h k % m.buckets.length) [] :=
            (swapRemove_subperm _ i).subset he
          exact WF_place_getD hwf hmem
        · rw [List.getD_eq_getElem?_getD, List.getElem?_set_ne (fun q => hjb q.symm),
            ← List.getD_eq_getElem?_getD] at he
          exact WF_place_getD hwf he
      · intro c hc
        simp only [] at hc
        rcases List.mem_or_eq_of_mem_set hc with hmem | rfl
        · exact hwf.2 c hmem
        · exact subperm_keys_nodup (swapRemove_subperm _ i)
            (hwf.2 _ hchain_mem)

/-! ## The sequence produced by the iterator -/

/-- Specification helper: the entries an iterator positioned at `it` has yet
to yield — the rest of the current chain, then all later chains. -/
def tailFrom (m : HashMap K V) (it : Iter) : List (K × V) :=
  ((m.buckets.getD it.bucket []).drop it.pos) ++
    ((m.buckets.drop (it.bucket + 1)).flatten)

theorem next_of_none {m : HashMap K V} {it : Iter}
    (hb : m.buckets.get? it.bucket = none) : Iter.next m it = none := by
  unfold Iter.next
  split
  · rename_i chain hchain
    rw [hb] at hchain
    exact absurd hchain (by simp)
  · rfl

theorem next_of_some_some {m : HashMap K V} {it : Iter} {chain : List (K × V)}
    {e : K × V} (hb : m.buckets.get? it.bucket = some chain)
    (hp : chain.get? it.pos = some e) :
    Iter.next m it = some (e, ⟨it.bucket, it.pos + 1⟩) := by
  unfold Iter.next
  split
  · rename_i chain' hchain
    rw [hb] at hchain
    have hcc : chain' = chain := by injection hchain.symm
    subst hcc
    rw [hp]
  · rename_i hchain
    rw [hb] at hchain
    exact absurd hchain (by simp)

theorem next_of_some_none {m : HashMap K V} {it : Iter} {chain : List (K × V)}
    (hb : m.buckets.get? it.bucket = some chain) (hp : chain.get? it.pos = none) :
    Iter.next m it = Iter.next m ⟨it.bucket + 1, 0⟩ := by
  conv_lhs => unfold Iter.next
  split
  · rename_i chain' hchain
    rw [hb] at hchain
    have hcc : chain' = chain := by injection hchain.symm
    subst hcc
    rw [hp]
  · rename_i hchain
    rw [hb] at hchain
    exact absurd hchain (by simp)

theorem tailFrom_skip {m : HashMap K V} {it : Iter} {chain : List (K × V)}
    (hb : m.buckets.get? it.bucket = some chain) (hp : chain.get? it.pos = none) :
    tailFrom m it = tailFrom m ⟨it.bucket + 1, 0⟩ := by
  have hblt : it.bucket < m.buckets.length := by
    rw [List.get?_eq_getElem?] at hb
    exact (List.getElem?_eq_some.mp hb).1
  have hplen : chain.length ≤ it.pos := by
    rw [List.get?_eq_getElem?] at hp
    have := List.getElem?_eq_none_iff.mp hp
    omega
  have hchain : m.buckets.getD it.bucket [] = chain := by
    rw [List.getD_eq_getElem?_getD, ← List.get?_eq_getElem?, hb]
    rfl
  show (m.buckets.getD it.bucket []).drop it.pos ++
      (m.buckets.drop (it.bucket + 1)).flatten =
    (m.buckets.getD (it.bucket + 1) []).drop 0 ++
      (m.buckets.drop (it.bucket + 1 + 1)).flatten
  rw [hchain, List.drop_eq_nil_of_le hplen, List.nil_append, List.drop_zero]
  cases hb2 : m.buckets.get? (it.bucket + 1) with
  | none =>
    have hlen2 : m.buckets.length ≤ it.bucket + 1 := by
      rw [List.get?_eq_getElem?] at hb2
      have := List.getElem?_eq_none_iff.mp hb2
      omega
    rw [List.drop_eq_nil_of_le hlen2, List.drop_eq_nil_of_le (by omega)]
    rw [List.getD_eq_getElem?_getD, List.getElem?_eq_none (by omega)]
    rfl
  | some c2 =>
    have hblt2 : it.bucket + 1 < m.buckets.length := by
      rw [List.get?_eq_getElem?] at hb2
      exact (List.getElem?_eq_some.mp hb2).1
    have hc2 : m.buckets.getD (it.bucket + 1) [] = c2 := by
      rw [List.getD_eq_getElem?_getD, ← List.get?_eq_getElem?, hb2]
      rfl
    rw [List.drop_eq_getElem_cons hblt2, List.flatten_cons, hc2,
      ← List.getD_eq_getElem _ _ hblt2, hc2]

theorem next_spec (m : HashMap K V) :
    ∀ (it : Iter),
    (Iter.next m it = none → tailFrom m it = []) ∧
    (∀ e it', Iter.next m it = some (e, it') →
      tailFrom m it = e :: tailFrom m it') := by
  suffices H : ∀ (n : Nat) (it : Iter), m.buckets.length - it.bucket ≤ n →
      (Iter.next m it = none → tailFrom m it = []) ∧
      (∀ e it', Iter.next m it = some (e, it') →
        tailFrom m it = e :: tailFrom m it') by
    intro it
    exact H (m.buckets.length - it.bucket) it (le_refl _)
  intro n
  induction n with
  | zero =>
    intro it hle
    have hnone : m.buckets.get? it.bucket = none := by
      rw [List.get?_eq_getElem?, List.getElem?_eq_none]
      omega
    constructor
    · intro _
      unfold tailFrom
      rw [List.getD_eq_getElem?_getD, List.getElem?_eq_none (by omega)]
      simp only [Option.getD_none, List.drop_nil, List.nil_append]
      rw [List.drop_eq_nil_of_le (show m.buckets.length ≤ it.bucket + 1 by omega)]
      rfl
    · intro e it' hnext
      rw [next_of_none hnone] at hnext
      exact absurd hnext (by simp)
  | succ n ih =>
    intro it hle
    cases hb : m.buckets.get? it.bucket with
    | none =>
      have hblen : m.buckets.length ≤ it.bucket := by
        rw [List.get?_eq_getElem?] at hb
        have := List.getElem?_eq_none_iff.mp hb
        omega
      constructor
      · intro _
        unfold tailFrom
        rw [List.getD_eq_getElem?_getD, List.getElem?_eq_none (by omega)]
        simp only [Option.getD_none, List.drop_nil, List.nil_append]
        rw [List.drop_eq_nil_of_le (show m.buckets.length ≤ it.bucket + 1 by omega)]
        rfl
      · intro e it' hnext
        rw [next_of_none hb] at hnext
        exact absurd hnext (by simp)
    | some chain =>
      have hblt : it.bucket < m.buckets.length := by
        rw [List.get?_eq_getElem?] at hb
        exact (List.getElem?_eq_some.mp hb).1
      have hchain : m.buckets.getD it.bucket [] = chain := by
        rw [List.getD_eq_getElem?_getD, ← List.get?_eq_getElem?, hb]
        rfl
      cases hp : chain.get? it.pos with
      | some e =>
        have hnext := next_of_some_some hb hp
        constructor
        · intro hcontra
          rw [hnext] at hcontra
          exact absurd hcontra (by simp)
        · intro e' it' hnext'
          rw [hnext] at hnext'
          simp only [Option.some.injEq, Prod.mk.injEq] at hnext'
          obtain ⟨rfl, rfl⟩ := hnext'
          have hpos : it.pos < chain.length := by
            rw [List.get?_eq_getElem?] at hp
            exact (List.getElem?_eq_some.mp hp).1
          have hpe : chain[it.pos] = e := by
            rw [List.get?_eq_getElem?] at hp
            exact (List.getElem?_eq_some.mp hp).2
          show (m.buckets.getD it.bucket []).drop it.pos ++
              (m.buckets.drop (it.bucket + 1)).flatten =
            e :: ((m.buckets.getD it.bucket []).drop (it.pos + 1) ++
              (m.buckets.drop (it.bucket + 1)).flatten)
          rw [hchain, List.drop_eq_getElem_cons hpos, hpe]
          rfl
      | none =>
        have hnext := next_of_some_none hb hp
        have htail := tailFrom_skip hb hp
        have hle2 : m.buckets.length - (it.bucket + 1) ≤ n := by omega
        have ih2 := ih ⟨it.bucket + 1, 0⟩ hle2
        constructor
        · intro hcontra
          rw [hnext] at hcontra
          rw [htail]
          exact ih2.1 hcontra
        · intro e it' hnext'
          rw [hnext] at hnext'
          rw [htail]
          exact ih2.2 e it' hnext'

theorem drain_eq_tailFrom (m : HashMap K V) :
    ∀ (fuel : Nat) (it : Iter), (tailFrom m it).length < fuel →
    drain m fuel it = tailFrom m it := by
  intro fuel
  induction fuel with
  | zero => intro it h; omega
  | succ fuel ih =>
    intro it hlt
    cases hnext : Iter.next m it with
    | none =>
      rw [(next_spec m it).1 hnext]
      unfold drain
      rw [hnext]
    | some p =>
      obtain ⟨e, it'⟩ := p
      have htail := (next_spec m it).2 e it' hnext
      unfold drain
      rw [hnext, htail]
      show e :: drain m fuel it' = e :: tailFrom m it'
      congr 1
      apply ih
      rw [htail] at hlt
      simp only [List.length_cons] at hlt
      omega

theorem tailFrom_start (m : HashMap K V) :
    tailFrom m ⟨0, 0⟩ = m.buckets.flatten := by
  unfold tailFrom
  cases hb : m.buckets with
  | nil => rfl
  | cons c rest =>
    simp [List.flatten_cons]

/-- With enough fuel, the iterator yields exactly the concatenation of the
chains in bucket order. -/
theorem iterate_eq_entries {m : HashMap K V} {fuel : Nat}
    (hfuel : m.entries.length < fuel) : m.iterate fuel = m.entries := by
  unfold HashMap.iterate
  rw [drain_eq_tailFrom m fuel ⟨0, 0⟩ (by rw [tailFrom_start]; exact hfuel),
    tailFrom_start]
  rfl

/-! ## Entries under insertion; running operation sequences -/

theorem insert_buckets_of_fresh {h : K → Nat} {m : HashMap K V} {k : K} {v : V}
    (hfresh : ∀ x ∈ (preInsert h m).entries, x.1 ≠ k) :
    (m.insert h k v).1.buckets = pushAt h (preInsert h m).buckets (k, v) := by
  have hpos := preInsert_length_pos h m
  have hb : h k % (preInsert h m).buckets.length < (preInsert h m).buckets.length :=
    Nat.mod_lt _ hpos
  have hchain_mem : ((preInsert h m).buckets.getD
      (h k % (preInsert h m).buckets.length) []) ∈ (preInsert h m).buckets := by
    rw [List.getD_eq_getElem _ _ hb]
    exact List.getElem_mem hb
  have hrc : replaceInChain k v
      ((preInsert h m).buckets.getD (h k % (preInsert h m).buckets.length) []) = none := by
    rw [replaceInChain_eq_none_iff]
    intro e he
    exact hfresh e ((List.sublist_flatten_of_mem hchain_mem).subset he)
  rw [insert_def, hrc]
  rfl

theorem entries_insert_fresh {h : K → Nat} {m : HashMap K V} {k : K} {v : V}
    (hfresh : ∀ x ∈ m.entries, x.1 ≠ k) :
    ((m.insert h k v).1.entries).Perm (m.entries ++ [(k, v)]) := by
  have hpre := preInsert_entries_perm h m
  have hfresh' : ∀ x ∈ (preInsert h m).entries, x.1 ≠ k :=
    fun x hx => hfresh x (hpre.subset hx)
  have hpos := preInsert_length_pos h m
  have h1 : (m.insert h k v).1.entries =
      (pushAt h (preInsert h m).buckets (k, v)).flatten := by
    rw [HashMap.entries, insert_buckets_of_fresh hfresh']
  rw [h1]
  have h2 := flatten_pushAt_perm (h := h) hpos (k, v)
  refine h2.trans ?_
  have h3 : ((k, v) :: (preInsert h m).buckets.flatten).Perm
      ((k, v) :: m.entries) := hpre.cons _
  refine h3.trans ?_
  exact (List.perm_append_singleton _ _).symm

theorem insertAll_items (h : K → Nat) (kvs : List (K × V)) :
    ∀ m : HashMap K V, (insertAll h kvs m).items = m.items + kvs.length := by
  induction kvs with
  | nil => intro m; rfl
  | cons e rest ih =>
    intro m
    unfold insertAll at ih ⊢
    rw [List.foldl_cons, ih, insert_fst_items]
    simp only [List.length_cons]
    omega

theorem insertAll_WF {h : K → Nat} (kvs : List (K × V)) :
    ∀ {m : HashMap K V}, m.WF h → (insertAll h kvs m).WF h := by
  induction kvs with
  | nil => intro m hwf; exact hwf
  | cons e rest ih =>
    intro m hwf
    unfold insertAll at ih ⊢
    rw [List.foldl_cons]
    exact ih (insert_WF e.1 e.2 hwf)

theorem insertAll_entries {h : K → Nat} (kvs : List (K × V)) :
    ∀ {m : HashMap K V}, m.WF h →
    (((m.entries ++ kvs).map Prod.fst)).Nodup →
    ((insertAll h kvs m).entries).Perm (m.entries ++ kvs) := by
  induction kvs with
  | nil =>
    intro m _ _
    simp [insertAll]
  | cons e rest ih =>
    intro m hwf hnd
    have hfresh : ∀ x ∈ m.entries, x.1 ≠ e.1 := by
      intro x hx hxe
      have : (m.entries.map Prod.fst ++ e.1 :: rest.map Prod.fst).Nodup := by
        simpa using hnd
      have hdis := (List.nodup_append.mp this).2.2
      exact hdis (List.mem_map.mpr ⟨x, hx, hxe⟩) (by simp)
    have hperm1 : ((m.insert h e.1 e.2).1.entries).Perm (m.entries ++ [e]) :=
      entries_insert_fresh hfresh
    have hshape : (m.entries ++ [e]) ++ rest = m.entries ++ e :: rest := by
      simp
    have hnd' : ((((m.insert h e.1 e.2).1.entries) ++ rest).map Prod.fst).Nodup := by
      have hp : (((m.insert h e.1 e.2).1.entries ++ rest).map Prod.fst).Perm
          ((m.entries ++ e :: rest).map Prod.fst) := by
        apply List.Perm.map
        have := hperm1.append_right rest
        rw [hshape] at this
        exact this
      exact (hp.nodup_iff).mpr hnd
    unfold insertAll at ih ⊢
    rw [List.foldl_cons]
    refine (ih (insert_WF e.1 e.2 hwf) hnd').trans ?_
    have := hperm1.append_right rest
    rw [hshape] at this
    exact this

theorem new_WF (h : K → Nat) : (HashMap.new : HashMap K V).WF h := by
  constructor
  · intro i
    exact absurd i.isLt (by simp [HashMap.new])
  · intro c hc
    exact absurd hc (by simp [HashMap.new])

theorem step_WF {h : K → Nat} {m m₂ : HashMap K V} {op : Op K V}
    (hwf : m.WF h) (hs : step h m op = Res.ok m₂) : m₂.WF h := by
  cases op with
  | ins k v =>
    unfold step at hs
    simp only [Res.ok.injEq] at hs
    rw [← hs]
    exact insert_WF k v hwf
  | del k =>
    have hs' : (match m.remove h k with
        | Res.fault => Res.fault
        | Res.ok (m', _) => Res.ok m') = Res.ok m₂ := hs
    cases hr : m.remove h k with
    | fault =>
      rw [hr] at hs'
      exact absurd hs' (by simp)
    | ok p =>
      obtain ⟨m', o⟩ := p
      rw [hr] at hs'
      simp only [Res.ok.injEq] at hs'
      rw [← hs']
      exact remove_WF hwf hr

theorem foldl_step_fault {h : K → Nat} :
    ∀ ops : List (Op K V), ops.foldl
      (fun r op =>
        match r with
        | Res.fault => Res.fault
        | Res.ok m => step h m op) Res.fault = Res.fault := by
  intro ops
  induction ops with
  | nil => rfl
  | cons op rest ih => rw [List.foldl_cons]; exact ih

theorem foldl_step_WF {h : K → Nat} :
    ∀ (ops : List (Op K V)) (m₀ : HashMap K V), m₀.WF h →
    ∀ {m : HashMap K V}, ops.foldl
      (fun r op =>
        match r with
        | Res.fault => Res.fault
        | Res.ok m => step h m op) (Res.ok m₀) = Res.ok m → m.WF h := by
  intro ops
  induction ops with
  | nil =>
    intro m₀ h0 m hm
    simp only [List.foldl_nil, Res.ok.injEq] at hm
    rw [← hm]
    exact h0
  | cons op rest ih =>
    intro m₀ h0 m hm
    rw [List.foldl_cons] at hm
    have hm' : rest.foldl
        (fun r op =>
          match r with
          | Res.fault => Res.fault
          | Res.ok m => step h m op) (step h m₀ op) = Res.ok m := hm
    cases hs : step h m₀ op with
    | fault =>
      rw [hs] at hm'
      rw [foldl_step_fault] at hm'
      exact absurd hm' (by simp)
    | ok m₁ =>
      rw [hs] at hm'
      exact ih m₁ (step_WF h0 hs) hm'

theorem run_ok_WF {h : K → Nat} {ops : List (Op K V)} {m : HashMap K V}
    (hr : run h ops = Res.ok m) : m.WF h :=
  foldl_step_WF ops HashMap.new (new_WF h) hr

/-! ## The load-factor invariant -/

/-- Invariant relating the stored count to the bucket count: the count is at
most one over the integer load threshold, buckets only exist once populated,
and the bucket count is a power of two once allocated. -/
def loadInv (m : HashMap K V) : Prop :=
  m.items ≤ 3 * m.buckets.length / 4 + 1 ∧
  (m.buckets.length = 0 → m.items = 0) ∧
  (m.buckets.length = 0 ∨ ∃ j : Nat, m.buckets.length = 2 ^ j)

theorem preInsert_buckets_length (h : K → Nat) (m : HashMap K V) :
    (preInsert h m).buckets.length =
      if m.buckets.length = 0 ∨ m.items > 3 * m.buckets.length / 4 then
        (if m.buckets.length = 0 then 1 else 2 * m.buckets.length)
      else m.buckets.length := by
  unfold preInsert
  split
  · exact resize_buckets_length h m
  · rfl

theorem insert_loadInv {h : K → Nat} {m : HashMap K V} (hP : loadInv m)
    (k : K) (v : V) : loadInv (m.insert h k v).1 := by
  obtain ⟨h1, h2, h3⟩ := hP
  have hitems := insert_fst_items h m k v
  have hlen := insert_buckets_length h m k v
  rw [preInsert_buckets_length] at hlen
  by_cases hg : m.buckets.length = 0 ∨ m.items > 3 * m.buckets.length / 4
  · rw [if_pos hg] at hlen
    by_cases h0 : m.buckets.length = 0
    · rw [if_pos h0] at hlen
      have : m.items = 0 := h2 h0
      refine ⟨?_, ?_, ?_⟩
      · rw [hitems, hlen, this]
      · intro hq; rw [hlen] at hq; omega
      · right; exact ⟨0, by rw [hlen]; rfl⟩
    · rw [if_neg h0] at hlen
      have hover : m.items > 3 * m.buckets.length / 4 := by
        rcases hg with hg | hg
        · exact absurd hg h0
        · exact hg
      refine ⟨?_, ?_, ?_⟩
      · rw [hitems, hlen]
        have hlpos : 1 ≤ m.buckets.length := by omega
        omega
      · intro hq; rw [hlen] at hq; omega
      · right
        rcases h3 with h3 | ⟨j, hj⟩
        · exact absurd h3 h0
        · exact ⟨j + 1, by rw [hlen, hj]; ring⟩
  · rw [if_neg hg] at hlen
    push_neg at hg
    refine ⟨?_, ?_, ?_⟩
    · rw [hitems, hlen]; omega
    · intro hq; rw [hlen] at hq; exact absurd hq hg.1
    · rw [hlen]; exact h3

theorem new_loadInv : loadInv (HashMap.new : HashMap K V) := by
  refine ⟨?_, ?_, ?_⟩ <;> simp [HashMap.new]

theorem insertAll_loadInv {h : K → Nat} (kvs : List (K × V)) :
    ∀ {m : HashMap K V}, loadInv m → loadInv (insertAll h kvs m) := by
  induction kvs with
  | nil => intro m hP; exact hP
  | cons e rest ih =>
    intro m hP
    unfold insertAll at ih ⊢
    rw [List.foldl_cons]
    exact ih (insert_loadInv hP e.1 e.2)

theorem insertAll_length_pos {h : K → Nat} (kvs : List (K × V)) (hne : kvs ≠ []) :
    ∀ m : HashMap K V, 0 < (insertAll h kvs m).buckets.length := by
  induction kvs with
  | nil => exact absurd rfl hne
  | cons e rest ih =>
    intro m
    unfold insertAll
    rw [List.foldl_cons]
    by_cases hr : rest = []
    · subst hr
      simp only [List.foldl_nil]
      exact insert_length_pos h m e.1 e.2
    · exact ih hr (m.insert h e.1 e.2).1

/-! ## The claims -/

/-- C1: the claim says `get`/`remove` on a table with zero buckets return
absent without faulting.  The code has no empty-table guard: `fn bucket`
computes `hasher.finish() % 0`, which panics in Rust, so on a freshly
constructed table both operations fault. -/
theorem claim_C1 :
    HashMap.get id (HashMap.new : HashMap Nat Nat) 0 = Res.fault ∧
    HashMap.remove id (HashMap.new : HashMap Nat Nat) 0 = Res.fault := by
  decide

/-- C2: insert of an existing key does return the previous value and make
`get` yield the new value, but `len()` becomes 2, not 1, because
`self.items += 1` runs before the replacement scan. -/
theorem claim_C2 :
    (HashMap.insert id (HashMap.insert id
        (HashMap.new : HashMap Nat Nat) 0 1).1 0 2).2 = some 1 ∧
    ((HashMap.insert id (HashMap.insert id
        (HashMap.new : HashMap Nat Nat) 0 1).1 0 2).1).get id 0 = Res.ok (some 2) ∧
    ((HashMap.insert id (HashMap.insert id
        (HashMap.new : HashMap Nat Nat) 0 1).1 0 2).1).len = 2 := by
  decide

/-- C3: the stored count does not equal the number of stored entries after a
duplicate-key insert: two inserts of key 0 leave one entry but `len() = 2`. -/
theorem claim_C3 :
    ((HashMap.insert id (HashMap.insert id
        (HashMap.new : HashMap Nat Nat) 0 1).1 0 2).1).len = 2 ∧
    ((HashMap.insert id (HashMap.insert id
        (HashMap.new : HashMap Nat Nat) 0 1).1 0 2).1).entries = [(0, 2)] := by
  decide

/-- C4: for every table state, key and value, `get(k)` immediately after
`insert(k, v)` returns `v`. -/
theorem claim_C4 (h : K → Nat) (m : HashMap K V) (k : K) (v : V) :
    ((m.insert h k v).1).get h k = Res.ok (some v) := by
  have hlen := insert_buckets_length h m k v
  have hpos := preInsert_length_pos h m
  have hlen0 : (m.insert h k v).1.buckets.length ≠ 0 := by omega
  obtain ⟨c₁, c₂, hchain, hc₁, _, _⟩ := insert_target_chain h m k v
  rw [get_of_chain hlen0, hlen, hchain]
  rw [List.find?_append,
    List.find?_eq_none.mpr (fun x hx => by simp [hc₁ x hx])]
  simp [List.find?_cons]

/-- C5: on a well-formed table, `insert(k, v)` then `remove(k)` returns the
stored value `v`, leaves `get(k)` absent, decrements `len` by exactly one
relative to the post-insert state, and does not change the bucket count. -/
theorem claim_C5 (h : K → Nat) (m : HashMap K V) (k : K) (v : V) (hwf : m.WF h) :
    ∃ m₂ : HashMap K V,
      ((m.insert h k v).1).remove h k = Res.ok (m₂, some v) ∧
      m₂.get h k = Res.ok none ∧
      m₂.items + 1 = (m.insert h k v).1.items ∧
      m₂.buckets.length = (m.insert h k v).1.buckets.length := by
  have hlen := insert_buckets_length h m k v
  have hpos := preInsert_length_pos h m
  have hlen0 : (m.insert h k v).1.buckets.length ≠ 0 := by omega
  obtain ⟨c₁, c₂, hchain, hc₁, hsub, hstrong⟩ := insert_target_chain h m k v
  obtain ⟨hc₂, hnd⟩ := hstrong hwf
  have hchain2 : (m.insert h k v).1.buckets.getD
      (h k % (m.insert h k v).1.buckets.length) [] = c₁ ++ (k, v) :: c₂ := by
    rw [hlen]
    exact hchain
  refine ⟨_, remove_found hlen0 hchain2 hc₁, ?_, ?_, ?_⟩
  · apply get_none_of_no_key
    · simp only [List.length_set]
      exact hlen0
    · intro x hx
      simp only [List.length_set] at hx
      rw [List.getD_eq_getElem?_getD,
        List.getElem?_set_self (Nat.mod_lt _ (Nat.pos_of_ne_zero hlen0)),
        Option.getD_some] at hx
      have hx' : x ∈ c₁ ++ c₂ := ((swapRemove_middle_perm c₁ (k, v) c₂).mem_iff).mp hx
      rcases List.mem_append.mp hx' with hx' | hx'
      · exact hc₁ x hx'
      · exact hc₂ x hx'
  · show (m.insert h k v).1.items - 1 + 1 = (m.insert h k v).1.items
    have := insert_fst_items h m k v
    omega
  · exact List.length_set _ _ _

/-- C5 witness: the guarantee instantiated on a fresh table with key 0 and
value 5. -/
theorem claim_C5_witness :
    (HashMap.new : HashMap Nat Nat).WF id ∧
    ∃ m₂ : HashMap Nat Nat,
      ((HashMap.insert id HashMap.new 0 5).1).remove id 0 = Res.ok (m₂, some 5) ∧
      m₂.get id 0 = Res.ok none ∧
      m₂.items + 1 = (HashMap.insert id HashMap.new 0 5).1.items ∧
      m₂.buckets.length = (HashMap.insert id HashMap.new 0 5).1.buckets.length :=
  ⟨by decide, claim_C5 id HashMap.new 0 5 (by decide)⟩

/-- C6: `insert` resizes exactly when, on entry, the buckets are unallocated
or `items > 3*len/4` (independently of the key), doubling the bucket count
(or setting it to 1 from 0) before placing, and `resize` re-places every
existing entry (as a permutation of the entries) at `hash(key) % new_len`. -/
theorem claim_C6 (h : K → Nat) (m : HashMap K V) (k : K) (v : V) :
    ((m.insert h k v).1.buckets.length =
      if m.buckets.length = 0 ∨ m.items > 3 * m.buckets.length / 4 then
        (if m.buckets.length = 0 then 1 else 2 * m.buckets.length)
      else m.buckets.length) ∧
    ((m.resize h).buckets.length =
      if m.buckets.length = 0 then 1 else 2 * m.buckets.length) ∧
    ((m.resize h).entries).Perm m.entries ∧
    (∀ i : Nat, ((m.resize h).buckets.getD i []).all
      (fun e => h e.1 % (m.resize h).buckets.length == i)) := by
  refine ⟨?_, resize_buckets_length h m, resize_entries_perm h m, ?_⟩
  · rw [insert_buckets_length, preInsert_buckets_length]
  · intro i
    rw [List.all_eq_true]
    intro e he
    have := resize_placement m he
    simp [this]

/-- C7: every table reached by a sequence of public operations from `new()`
satisfies the placement invariant (each entry lives in the chain at
`hash(key) % len(buckets)`) and chain-level key uniqueness. -/
theorem claim_C7 (h : K → Nat) (ops : List (Op K V)) (m : HashMap K V)
    (hr : run h ops = Res.ok m) :
    (∀ i : Fin m.buckets.length, ∀ e ∈ m.buckets.get i,
      h e.1 % m.buckets.length = i.val) ∧
    (∀ c ∈ m.buckets, (c.map Prod.fst).Nodup) :=
  run_ok_WF hr

/-- C7 witness: the invariants on the concrete table reached by
insert 0 ↦ 10, remove 0, insert 1 ↦ 2. -/
theorem claim_C7_witness :
    run id [Op.ins 0 10, Op.del 0, Op.ins 1 2] =
      Res.ok (⟨[[(1, 2)]], 1⟩ : HashMap Nat Nat) ∧
    ((∀ i : Fin (⟨[[(1, 2)]], 1⟩ : HashMap Nat Nat).buckets.length,
      ∀ e ∈ (⟨[[(1, 2)]], 1⟩ : HashMap Nat Nat).buckets.get i,
        id e.1 % (⟨[[(1, 2)]], 1⟩ : HashMap Nat Nat).buckets.length = i.val) ∧
    (∀ c ∈ (⟨[[(1, 2)]], 1⟩ : HashMap Nat Nat).buckets, (c.map Prod.fst).Nodup)) :=
  ⟨by decide, claim_C7 id [Op.ins 0 10, Op.del 0, Op.ins 1 2] ⟨[[(1, 2)]], 1⟩ (by decide)⟩

/-- C8: inserting distinct keys from a fresh table and iterating (with any
fuel beyond the entry count) yields exactly those pairs, each key once with
its inserted value, as a permutation of the inserted list. -/
theorem claim_C8 (h : K → Nat) (kvs : List (K × V)) (fuel : Nat)
    (hnd : (kvs.map Prod.fst).Nodup) (hfuel : kvs.length < fuel) :
    ((insertAll h kvs HashMap.new).iterate fuel).Perm kvs ∧
    ((insertAll h kvs HashMap.new).iterate fuel).length = kvs.length ∧
    (((insertAll h kvs HashMap.new).iterate fuel).map Prod.fst).Nodup := by
  have hperm : ((insertAll h kvs HashMap.new).entries).Perm kvs := by
    have hx := insertAll_entries kvs (m := HashMap.new) (new_WF h) (by simpa using hnd)
    simpa [HashMap.new, HashMap.entries] using hx
  have hflen : (insertAll h kvs HashMap.new).entries.length = kvs.length :=
    hperm.length_eq
  have hiter : (insertAll h kvs HashMap.new).iterate fuel =
      (insertAll h kvs (HashMap.new : HashMap K V)).entries :=
    iterate_eq_entries (by omega)
  rw [hiter]
  exact ⟨hperm, hflen, ((hperm.map Prod.fst).nodup_iff).mpr hnd⟩

/-- C8 witness: three distinct keys, fuel 4. -/
theorem claim_C8_witness :
    (([((0 : Nat), (10 : Nat)), (1, 11), (2, 12)].map Prod.fst).Nodup) ∧
    (([((0 : Nat), (10 : Nat)), (1, 11), (2, 12)] : List (Nat × Nat)).length < 4) ∧
    (((insertAll id [((0 : Nat), (10 : Nat)), (1, 11), (2, 12)]
        HashMap.new).iterate 4).Perm [(0, 10), (1, 11), (2, 12)] ∧
    ((insertAll id [((0 : Nat), (10 : Nat)), (1, 11), (2, 12)]
        HashMap.new).iterate 4).length = 3 ∧
    (((insertAll id [((0 : Nat), (10 : Nat)), (1, 11), (2, 12)]
        HashMap.new).iterate 4).map Prod.fst).Nodup) :=
  ⟨by decide, by decide,
    claim_C8 id [(0, 10), (1, 11), (2, 12)] 4 (by decide) (by decide)⟩

/-- C9 counterexample: after inserting one distinct key into a fresh table
the bucket count is 1, and `1 ≤ 3/4 × 1` is false — the claimed bound
`N ≤ 3/4 × bucket_count` fails at the very first step. -/
theorem claim_C9_cex :
    (insertAll id [((0 : Nat), (10 : Nat))] HashMap.new).len = 1 ∧
    (insertAll id [((0 : Nat), (10 : Nat))] HashMap.new).buckets.length = 1 ∧
    ¬(4 * (insertAll id [((0 : Nat), (10 : Nat))] HashMap.new).len ≤
      3 * (insertAll id [((0 : Nat), (10 : Nat))] HashMap.new).buckets.length) := by
  decide

/-- C9 (amended): after inserting N distinct keys into a fresh table, the
count is N, the bucket count is 0 only for N = 0 and otherwise a power of
two, and the count is at most one over the integer threshold:
`N ≤ 3 * bucket_count / 4 + 1` (resize fires on the insert after the
threshold is first exceeded, so the bound `3/4` itself can be exceeded by
exactly the triggering entry). -/
theorem claim_C9 (h : K → Nat) (kvs : List (K × V))
    (hnd : (kvs.map Prod.fst).Nodup) :
    (insertAll h kvs HashMap.new).len = kvs.length ∧
    (kvs = [] → (insertAll h kvs HashMap.new).buckets.length = 0) ∧
    (kvs ≠ [] → ∃ j : Nat, (insertAll h kvs HashMap.new).buckets.length = 2 ^ j) ∧
    (insertAll h kvs HashMap.new).len ≤
      3 * (insertAll h kvs HashMap.new).buckets.length / 4 + 1 := by
  have hP : loadInv (insertAll h kvs (HashMap.new : HashMap K V)) :=
    insertAll_loadInv kvs new_loadInv
  refine ⟨?_, ?_, ?_, hP.1⟩
  · rw [HashMap.len, insertAll_items]
    simp [HashMap.new]
  · intro hnil
    subst hnil
    rfl
  · intro hne
    have hpos := insertAll_length_pos (h := h) kvs hne HashMap.new
    rcases hP.2.2 with h0 | hj
    · exact absurd h0 (by omega)
    · exact hj

/-- C9 witness: five distinct keys; the count is 5, buckets 8 = 2^3, and
5 ≤ 3·8/4 + 1 = 7. -/
theorem claim_C9_witness :
    (([((0 : Nat), (1 : Nat)), (1, 2), (2, 3), (3, 4), (4, 5)].map Prod.fst).Nodup) ∧
    ((insertAll id [((0 : Nat), (1 : Nat)), (1, 2), (2, 3), (3, 4), (4, 5)]
        HashMap.new).len = 5 ∧
    ([((0 : Nat), (1 : Nat)), (1, 2), (2, 3), (3, 4), (4, 5)] = [] →
      (insertAll id [((0 : Nat), (1 : Nat)), (1, 2), (2, 3), (3, 4), (4, 5)]
        HashMap.new).buckets.length = 0) ∧
    ([((0 : Nat), (1 : Nat)), (1, 2), (2, 3), (3, 4), (4, 5)] ≠ [] →
      ∃ j : Nat, (insertAll id [((0 : Nat), (1 : Nat)), (1, 2), (2, 3), (3, 4), (4, 5)]
        HashMap.new).buckets.length = 2 ^ j) ∧
    (insertAll id [((0 : Nat), (1 : Nat)), (1, 2), (2, 3), (3, 4), (4, 5)]
        HashMap.new).len ≤
      3 * (insertAll id [((0 : Nat), (1 : Nat)), (1, 2), (2, 3), (3, 4), (4, 5)]
        HashMap.new).buckets.length / 4 + 1) :=
  ⟨by decide, claim_C9 id [(0, 1), (1, 2), (2, 3), (3, 4), (4, 5)] (by decide)⟩

/-- C10: removing a key that is not stored anywhere, on a table whose bucket
vector is allocated, returns absent and leaves the table (buckets and count)
exactly as it was. -/
theorem claim_C10 (h : K → Nat) (m : HashMap K V) (k : K)
    (hlen : m.buckets.length ≠ 0) (habs : ∀ e ∈ m.entries, e.1 ≠ k) :
    m.remove h k = Res.ok (m, none) := by
  apply remove_not_found hlen
  intro x hx
  apply habs
  have hb : h k % m.buckets.length < m.buckets.length :=
    Nat.mod_lt _ (Nat.pos_of_ne_zero hlen)
  have hmem : (m.buckets.getD (h k % m.buckets.length) []) ∈ m.buckets := by
    rw [List.getD_eq_getElem _ _ hb]
    exact List.getElem_mem hb
  exact (List.sublist_flatten_of_mem hmem).subset hx

/-- C10 witness: removing absent key 0 from a one-bucket table holding only
key 1 returns the table unchanged. -/
theorem claim_C10_witness :
    ((⟨[[(1, 5)]], 1⟩ : HashMap Nat Nat).buckets.length ≠ 0) ∧
    (∀ e ∈ (⟨[[(1, 5)]], 1⟩ : HashMap Nat Nat).entries, e.1 ≠ 0) ∧
    (⟨[[(1, 5)]], 1⟩ : HashMap Nat Nat).remove id 0 =
      Res.ok (⟨[[(1, 5)]], 1⟩, none) :=
  ⟨by decide, by decide, claim_C10 id ⟨[[(1, 5)]], 1⟩ 0 (by decide) (by decide)⟩

end BasicHash
